import Mathlib

/-!
# Verification of the QuickDb typed value model and document marshalling engine

This file is a shallow embedding, in Lean 4, of the core of the QuickDb
repository: the `FieldValue`/`FieldType` tagged-union value system of
`include/quickdb/components/field.h`, its BSON wire encode/decode helpers
(`AppendToDocument`/`AppendToArray`/`fromBsonElement`), and the fluent
`Query` (`include/quickdb/components/query.h`) and `Update`
(`include/quickdb/components/update.h`) builders.

Modelling conventions:
* A C++ `FieldValue` is a pair of a `FieldType` tag and a `std::variant`
  payload; the tag and the active variant alternative are independent
  (the public two-argument constructor `FieldValue(type, value)` can pair
  any tag with any payload).  We model this with a single inductive whose
  constructor records the active variant alternative and which carries the
  tag as an explicit field.
* `std::unordered_map<std::string, FieldValue>` is modelled as an
  association list `List (String × FieldValue)`; the operations that the
  source performs on it (`operator[]` insert-or-assign, `find`, `emplace`)
  are modelled by `mapInsert` / `lookupFirst` / append, which maintain the
  map's key-uniqueness.  Equality of unordered maps is order-independent.
* Machine integers (`int32_t`, `int64_t`) are modelled as `Int`; no
  operation of the modelled code performs arithmetic on them, they are
  stored and retrieved verbatim, so no wraparound modelling is needed.
* `double` is stored and retrieved verbatim (no arithmetic); it is
  modelled by its 64-bit pattern as a `Nat`.
* `bsoncxx::oid` is a 12-byte identifier, modelled as its byte list.
* `bsoncxx::types::b_date` holds milliseconds since epoch (`Int`);
  `std::chrono::system_clock::time_point` is modelled at the same
  millisecond resolution, matching the spec's "date (milliseconds since
  epoch)" data model.
* `bsoncxx::types::b_timestamp` holds two `uint32` counters, modelled as
  two `Nat`s.
* C++ code that can throw (`std::get` on a variant whose active
  alternative differs from the requested one) is modelled with `Option`:
  `none` is the thrown `std::bad_variant_access`.
-/

namespace QDB

/-- The `FieldType` enum of `field.h` (the BSON kinds a field can represent). -/
inductive FieldType : Type where
  | FT_ARRAY
  | FT_BINARY
  | FT_BOOLEAN
  | FT_CODE
  | FT_DATE
  | FT_DECIMAL_128
  | FT_DOUBLE
  | FT_INT_32
  | FT_INT_64
  | FT_MAXKEY
  | FT_MINKEY
  | FT_NULL
  | FT_OBJECT
  | FT_OBJECT_ID
  | FT_BSON_REG_EXPR
  | FT_STRING
  | FT_BSON_SYMBOL
  | FT_TIMESTAMP
  | FT_UNDEFINED
deriving DecidableEq

/-- A C++ `FieldValue`: a `FieldType` tag paired with a `FieldVariant`
payload.  Each constructor corresponds to one alternative of the
`FieldVariant` `std::variant` of `field.h` (the active alternative), and
the first argument of each constructor is the `type` tag stored next to
it, which may or may not correspond to the alternative. -/
inductive FieldValue : Type where
  | arr (type : FieldType) (elems : List FieldValue)
  | bin (type : FieldType) (bytes : List Nat)
  | vbool (type : FieldType) (b : Bool)
  | vi32 (type : FieldType) (n : Int)
  | vi64 (type : FieldType) (n : Int)
  | vdouble (type : FieldType) (bits : Nat)
  | vnull (type : FieldType)
  | oidb (type : FieldType) (bytes : List Nat)
  | vstr (type : FieldType) (s : String)
  | vdate (type : FieldType) (millis : Int)
  | vts (type : FieldType) (t increment : Nat)
  | obj (type : FieldType) (entries : List (String × FieldValue))

/-- The `type` member of a `FieldValue` (the stored tag). -/
def FieldValue.fieldType : FieldValue → FieldType
  | .arr t _ => t
  | .bin t _ => t
  | .vbool t _ => t
  | .vi32 t _ => t
  | .vi64 t _ => t
  | .vdouble t _ => t
  | .vnull t => t
  | .oidb t _ => t
  | .vstr t _ => t
  | .vdate t _ => t
  | .vts t _ _ => t
  | .obj t _ => t

/-- A map from field names to values
(`std::unordered_map<std::string, FieldValue>` in the source). -/
abbrev FieldMap := List (String × FieldValue)

/-- `unordered_map::operator[]` followed by assignment: replace the value
stored at `k` if the key is present, otherwise add the entry.  (Position
in the list is irrelevant to map semantics; we keep the entry in place.) -/
def mapInsert {α : Type} (k : String) (v : α) : List (String × α) → List (String × α)
  | [] => [(k, v)]
  | (k₁, w) :: rest => if k₁ = k then (k₁, v) :: rest else (k₁, w) :: mapInsert k v rest

/-- `unordered_map::find`: the value stored at `k`, if any.  (Keys are
unique in an `unordered_map`, so the first match is the match.) -/
def lookupFirst {α : Type} (k : String) : List (String × α) → Option α
  | [] => none
  | (k₁, v) :: rest => if k₁ = k then some v else lookupFirst k rest

/-- Number of entries of the map with key `k` (to state that a map holds
exactly one entry for an operator). -/
def countKey {α : Type} (k : String) (m : List (String × α)) : Nat :=
  (m.filter (fun p => p.1 = k)).length

/-! ## Construction paths (the `FieldValue` constructors of `field.h`)

Each `of...` function below models one host-value constructor of
`FieldValue`: the generic template constructor sets
`type = type_to_fieldtype<T>::value` and stores the value in the variant
(enums are first cast to `int32_t`); the `time_point` constructor converts
to `b_date`; the `std::vector<uint8_t>` overload stores the bytes with tag
`FT_BINARY`; the generic `std::vector<T>` constructor converts each
element and stores the results with tag `FT_ARRAY`. -/

/-- `FieldValue(bool)` via the generic constructor. -/
def ofBool (b : Bool) : FieldValue := .vbool .FT_BOOLEAN b

/-- `FieldValue(int32_t)` via the generic constructor. -/
def ofInt32 (n : Int) : FieldValue := .vi32 .FT_INT_32 n

/-- `FieldValue(int64_t)` via the generic constructor. -/
def ofInt64 (n : Int) : FieldValue := .vi64 .FT_INT_64 n

/-- `FieldValue(double)` via the generic constructor (bit pattern stored verbatim). -/
def ofDouble (bits : Nat) : FieldValue := .vdouble .FT_DOUBLE bits

/-- `FieldValue(std::string)` via the generic constructor. -/
def ofString (s : String) : FieldValue := .vstr .FT_STRING s

/-- `FieldValue(bsoncxx::oid)` via the generic constructor. -/
def ofOid (bytes : List Nat) : FieldValue := .oidb .FT_OBJECT_ID bytes

/-- `FieldValue(bsoncxx::types::b_timestamp)` via the generic constructor. -/
def ofTimestamp (t increment : Nat) : FieldValue := .vts .FT_TIMESTAMP t increment

/-- `FieldValue(bsoncxx::types::b_date)` via the generic constructor. -/
def ofDate (millis : Int) : FieldValue := .vdate .FT_DATE millis

/-- `FieldValue(E)` for an enum type `E`: the generic constructor's
`is_enum` branch stores `static_cast<int32_t>(val)` with tag `FT_INT_32`.
The enum value is modelled by its underlying ordinal. -/
def ofEnum (ordinal : Int) : FieldValue := .vi32 .FT_INT_32 ordinal

/-- `FieldValue(std::chrono::system_clock::time_point)`: converts the time
point to a `b_date` (milliseconds since epoch) with tag `FT_DATE`. -/
def ofTimePoint (millis : Int) : FieldValue := .vdate .FT_DATE millis

/-- `FieldValue(const std::vector<uint8_t> &)`: byte vectors take the
dedicated overload, stored verbatim with tag `FT_BINARY`. -/
def ofBinary (bytes : List Nat) : FieldValue := .bin .FT_BINARY bytes

/-- The generic `FieldValue(const std::vector<T> &)` constructor
(non-`Document` branch): tag `FT_ARRAY`, each element converted by
`FieldValue(item)` — modelled by the element converter `ofU`. -/
def ofVector {α : Type} (ofU : α → FieldValue) (xs : List α) : FieldValue :=
  .arr .FT_ARRAY (xs.map ofU)

/-- `FieldValue(FieldType::FT_OBJECT, d.to_fields())`: how a
`Document`-derived value enters the value model (used by the
`Document`-branch of the vector constructor and by `Collection`). -/
def ofDoc {δ : Type} (toFields : δ → FieldMap) (d : δ) : FieldValue :=
  .obj .FT_OBJECT (toFields d)

/-- The `Document` branch of the `std::vector<T>` constructor: each
element is wrapped as `FieldValue(FT_OBJECT, item.to_fields())`. -/
def ofVectorDoc {δ : Type} (toFields : δ → FieldMap) (ds : List δ) : FieldValue :=
  .arr .FT_ARRAY (ds.map (ofDoc toFields))

/-- `FieldValue(std::vector<FieldValue>)`: tag `FT_ARRAY`, elements copied
verbatim (used by `Query::Or/And/in/all/mod`). -/
def arrOf (elems : List FieldValue) : FieldValue := .arr .FT_ARRAY elems

/-- `FieldValue(std::unordered_map<std::string, FieldValue>)`: tag
`FT_OBJECT`, map stored verbatim (used by the builders). -/
def objOf (entries : FieldMap) : FieldValue := .obj .FT_OBJECT entries

/-! ## Extraction (`FieldValue::as<T>` of `field.h`)

`as<T>` dispatches on the requested type `T` at compile time; each
`as...` function below models one of its `if constexpr` branches.  A
branch that calls `std::get` without a matching `try`/`catch` can throw
`std::bad_variant_access`; those branches return `Option` and model the
throw as `none`. -/

/-- `as<T>` for a plain scalar `T` (final `else` branch): return the
stored value when the payload's active alternative is `T`
(`std::holds_alternative`), else a default-constructed `T`.  Instance for
`T = int32_t` (default `0`).  The tag is not consulted. -/
def asInt32 (v : FieldValue) : Int :=
  match v with
  | .vi32 _ n => n
  | _ => 0

/-- Scalar branch of `as<T>` for `T = int64_t`. -/
def asInt64 (v : FieldValue) : Int :=
  match v with
  | .vi64 _ n => n
  | _ => 0

/-- Scalar branch of `as<T>` for `T = bool` (default `false`). -/
def asBool (v : FieldValue) : Bool :=
  match v with
  | .vbool _ b => b
  | _ => false

/-- Scalar branch of `as<T>` for `T = double` (default `0.0`, whose bit
pattern is `0`). -/
def asDouble (v : FieldValue) : Nat :=
  match v with
  | .vdouble _ bits => bits
  | _ => 0

/-- Scalar branch of `as<T>` for `T = std::string` (default `""`). -/
def asString (v : FieldValue) : String :=
  match v with
  | .vstr _ s => s
  | _ => ""

/-- Scalar branch of `as<T>` for `T = b_timestamp` (default: both
counters zero). -/
def asTimestamp (v : FieldValue) : Nat × Nat :=
  match v with
  | .vts _ t i => (t, i)
  | _ => (0, 0)

/-- The `is_enum` branch of `as<T>`: require `type == FT_INT_32`, then
return the stored `int32` cast back to the enum (modelled as the
ordinal); any mismatch yields the zero enum value. -/
def asEnum (v : FieldValue) : Int :=
  if v.fieldType = .FT_INT_32 then
    match v with
    | .vi32 _ n => n
    | _ => 0
  else 0

/-- The `time_point` branch of `as<T>`: require `type == FT_DATE` and a
`b_date` payload; else a default (epoch) time point. -/
def asTimePoint (v : FieldValue) : Int :=
  if v.fieldType = .FT_DATE then
    match v with
    | .vdate _ ms => ms
    | _ => 0
  else 0

/-- The `std::vector<uint8_t>` branch of `as<T>`: require
`type == FT_BINARY`, then `std::get` the bytes inside a `try`/`catch`
that falls back to the empty vector. -/
def asBinary (v : FieldValue) : List Nat :=
  if v.fieldType = .FT_BINARY then
    match v with
    | .bin _ bytes => bytes
    | _ => []
  else []

/-- The element loop of the `is_std_vector` branch of `as<T>`:
`result_vector.push_back(fv_item.as<U>())` for each element in order; an
element extraction that throws propagates (`none`). -/
def mapOptM {α : Type} (f : FieldValue → Option α) : List FieldValue → Option (List α)
  | [] => some []
  | x :: xs =>
      match f x, mapOptM f xs with
      | some y, some ys => some (y :: ys)
      | _, _ => none

/-- The `is_std_vector` branch of `as<T>`: if `type != FT_ARRAY`, return
the empty vector; otherwise `std::get` the element vector — with no
`try`/`catch`, so a payload that is not the array alternative throws
(`none`) — and convert every element with `as<U>` (which itself may
throw, hence `asU` returns `Option`; total element extractors are lifted
with `some`). -/
def asVec {α : Type} (asU : FieldValue → Option α) (v : FieldValue) : Option (List α) :=
  if v.fieldType = .FT_ARRAY then
    match v with
    | .arr _ elems => mapOptM asU elems
    | _ => none
  else some []

/-- The `Document` branch of `as<T>`: if `type != FT_OBJECT`, return a
default-constructed document; otherwise `std::get` the map — no
`try`/`catch`, so a non-map payload throws (`none`) — and build the
document by `from_fields`.  `dflt` is the default-constructed `T`;
`fromFields` models default-construction followed by `from_fields`. -/
def asDoc {δ : Type} (dflt : δ) (fromFields : FieldMap → δ) (v : FieldValue) : Option δ :=
  if v.fieldType = .FT_OBJECT then
    match v with
    | .obj _ entries => some (fromFields entries)
    | _ => none
  else some dflt

/-! ## Equality (`operator==(const FieldValue &, const FieldValue &)`)

The source compares `lhs.type != rhs.type → false`, then relies on
`std::variant::operator==`: different active alternatives compare
unequal; equal alternatives compare payloads — `std::vector` element-wise
in order, `std::unordered_map` as an unordered key/value collection
(equal sizes, and every entry of the left map present with an equal
mapped value in the right map; keys are unique in an `unordered_map`). -/

mutual

/-- `operator==` on `FieldValue` (true = equal). -/
def fvEq : FieldValue → FieldValue → Bool
  | .arr t xs, .arr t₁ ys => t == t₁ && fvListEq xs ys
  | .bin t a, .bin t₁ b => t == t₁ && a == b
  | .vbool t a, .vbool t₁ b => t == t₁ && a == b
  | .vi32 t a, .vi32 t₁ b => t == t₁ && a == b
  | .vi64 t a, .vi64 t₁ b => t == t₁ && a == b
  | .vdouble t a, .vdouble t₁ b => t == t₁ && a == b
  | .vnull t, .vnull t₁ => t == t₁
  | .oidb t a, .oidb t₁ b => t == t₁ && a == b
  | .vstr t a, .vstr t₁ b => t == t₁ && a == b
  | .vdate t a, .vdate t₁ b => t == t₁ && a == b
  | .vts t a i, .vts t₁ b j => t == t₁ && (a == b && i == j)
  | .obj t xs, .obj t₁ ys => t == t₁ && (xs.length == ys.length && fvObjSub xs ys)
  | _, _ => false

/-- `std::vector<FieldValue>::operator==`: same length, elements equal in
order. -/
def fvListEq : List FieldValue → List FieldValue → Bool
  | [], [] => true
  | x :: xs, y :: ys => fvEq x y && fvListEq xs ys
  | _, _ => false

/-- One direction of `std::unordered_map::operator==`: every entry of the
first map is present in the second with an equal value (with equal sizes
and unique keys this is unordered map equality). -/
def fvObjSub : List (String × FieldValue) → List (String × FieldValue) → Bool
  | [], _ => true
  | (k, v) :: rest, ys =>
      (match lookupFirst k ys with
       | some w => fvEq v w
       | none => false) && fvObjSub rest ys

end

/-! ## The wire model (`DocumentCodec`)

A BSON element value as the codec sees it: one constructor per wire type
produced by `AppendToDocument`/`AppendToArray` and recognized by
`fromBsonElement`, plus `bother` standing for any wire type outside that
set (`fromBsonElement`'s `default` case; note the BSON null marker also
reaches that `default` case).  `AppendToDocument(doc, key, fv)` appends
`(key, encodeV fv)` to the wire document under construction and
`AppendToArray(arr, fv)` appends `encodeV fv` positionally, so the
element-level content of both is the single dispatch `encodeV`. -/
inductive BsonValue : Type where
  | bbool (b : Bool)
  | bint32 (n : Int)
  | bint64 (n : Int)
  | bdouble (bits : Nat)
  | bnull
  | bstring (s : String)
  | boid (bytes : List Nat)
  | bdate (millis : Int)
  | btimestamp (t increment : Nat)
  | bbinary (bytes : List Nat)
  | bdoc (entries : List (String × BsonValue))
  | barray (elems : List BsonValue)
  | bother

mutual

/-- The value appended for a `FieldValue` by the `switch (fv.type)` of
`AppendToDocument`/`AppendToArray`.  Each recognized case `std::get`s the
payload alternative matching the tag — throwing (`none`) when the
alternative differs — and the `default` case appends a null marker
without touching the payload. -/
def encodeV (v : FieldValue) : Option BsonValue :=
  match v.fieldType with
  | .FT_BOOLEAN =>
      match v with
      | .vbool _ b => some (.bbool b)
      | _ => none
  | .FT_INT_32 =>
      match v with
      | .vi32 _ n => some (.bint32 n)
      | _ => none
  | .FT_INT_64 =>
      match v with
      | .vi64 _ n => some (.bint64 n)
      | _ => none
  | .FT_DOUBLE =>
      match v with
      | .vdouble _ bits => some (.bdouble bits)
      | _ => none
  | .FT_NULL => some .bnull
  | .FT_STRING =>
      match v with
      | .vstr _ s => some (.bstring s)
      | _ => none
  | .FT_OBJECT_ID =>
      match v with
      | .oidb _ bytes => some (.boid bytes)
      | _ => none
  | .FT_DATE =>
      match v with
      | .vdate _ ms => some (.bdate ms)
      | _ => none
  | .FT_TIMESTAMP =>
      match v with
      | .vts _ t i => some (.btimestamp t i)
      | _ => none
  | .FT_BINARY =>
      match v with
      | .bin _ bytes => some (.bbinary bytes)
      | _ => none
  | .FT_OBJECT =>
      match v with
      | .obj _ entries => (encodePairs entries).map BsonValue.bdoc
      | _ => none
  | .FT_ARRAY =>
      match v with
      | .arr _ elems => (encodeList elems).map BsonValue.barray
      | _ => none
  | _ => some .bnull

/-- Encoding of the elements of an array payload, in order
(`for (item : vec) AppendToArray(sub_arr, item)`). -/
def encodeList : List FieldValue → Option (List BsonValue)
  | [] => some []
  | x :: xs =>
      match encodeV x, encodeList xs with
      | some w, some ws => some (w :: ws)
      | _, _ => none

/-- Encoding of the entries of an object payload
(`for ([sub_key, sub_value] : map) AppendToDocument(sub_doc, ...)`); the
iteration order of the `unordered_map` is unspecified, modelled as the
representation order. -/
def encodePairs : List (String × FieldValue) → Option (List (String × BsonValue))
  | [] => some []
  | (k, x) :: xs =>
      match encodeV x, encodePairs xs with
      | some w, some ws => some ((k, w) :: ws)
      | _, _ => none

end

/-- `map[key] = fromBsonElement(inner_element)` executed for each wire
entry in order: fold `mapInsert` over already-decoded entries. -/
def insertAllPairs (acc : FieldMap) : FieldMap → FieldMap
  | [] => acc
  | (k, v) :: rest => insertAllPairs (mapInsert k v acc) rest

mutual

/-- `fromBsonElement`: dispatch on the wire type of the element; each
recognized wire type maps back to the corresponding tag and payload, a
wire document decodes into an `FT_OBJECT` map keyed by element names, a
wire array decodes into an `FT_ARRAY` vector positionally, and any other
wire type takes the `default` case: `FT_NULL` with a null payload. -/
def decodeE : BsonValue → FieldValue
  | .bbool b => .vbool .FT_BOOLEAN b
  | .bint32 n => .vi32 .FT_INT_32 n
  | .bint64 n => .vi64 .FT_INT_64 n
  | .bdouble bits => .vdouble .FT_DOUBLE bits
  | .bstring s => .vstr .FT_STRING s
  | .boid bytes => .oidb .FT_OBJECT_ID bytes
  | .bdate ms => .vdate .FT_DATE ms
  | .btimestamp t i => .vts .FT_TIMESTAMP t i
  | .bbinary bytes => .bin .FT_BINARY bytes
  | .bdoc entries => .obj .FT_OBJECT (insertAllPairs [] (decodePairs entries))
  | .barray elems => .arr .FT_ARRAY (decodeList elems)
  | .bnull => .vnull .FT_NULL
  | .bother => .vnull .FT_NULL

/-- Positional decoding of a wire array's elements. -/
def decodeList : List BsonValue → List FieldValue
  | [] => []
  | w :: ws => decodeE w :: decodeList ws

/-- Decoding of a wire document's entries, in order, before they are
inserted into the map. -/
def decodePairs : List (String × BsonValue) → FieldMap
  | [] => []
  | (k, w) :: ws => (k, decodeE w) :: decodePairs ws

end

/-! ## Well-formedness predicates -/

mutual

/-- The tag/payload consistency invariant of the spec's data model: the
`kind` tag corresponds to the payload's active variant alternative (with
the canonical tag for each alternative), recursively for array elements
and object entries. -/
def consistent : FieldValue → Bool
  | .arr t xs => t == .FT_ARRAY && consistentList xs
  | .bin t _ => t == .FT_BINARY
  | .vbool t _ => t == .FT_BOOLEAN
  | .vi32 t _ => t == .FT_INT_32
  | .vi64 t _ => t == .FT_INT_64
  | .vdouble t _ => t == .FT_DOUBLE
  | .vnull t => t == .FT_NULL
  | .oidb t _ => t == .FT_OBJECT_ID
  | .vstr t _ => t == .FT_STRING
  | .vdate t _ => t == .FT_DATE
  | .vts t _ _ => t == .FT_TIMESTAMP
  | .obj t xs => t == .FT_OBJECT && consistentPairs xs

/-- All elements of an array payload are consistent. -/
def consistentList : List FieldValue → Bool
  | [] => true
  | x :: xs => consistent x && consistentList xs

/-- All values of an object payload are consistent. -/
def consistentPairs : List (String × FieldValue) → Bool
  | [] => true
  | (_, v) :: xs => consistent v && consistentPairs xs

end

/-- `k` does not occur among the keys of the map. -/
def keyAbsent {α : Type} (k : String) : List (String × α) → Bool
  | [] => true
  | (k₁, _) :: rest => !(k₁ = k : Bool) && keyAbsent k rest

/-- The keys of the map are pairwise distinct (an `unordered_map` cannot
hold duplicate keys). -/
def nodupKeys {α : Type} : List (String × α) → Bool
  | [] => true
  | (k, _) :: rest => keyAbsent k rest && nodupKeys rest

mutual

/-- Every object map in the tree has pairwise-distinct keys (true of
every tree representing actual `unordered_map`s). -/
def keysNodupRec : FieldValue → Bool
  | .arr _ xs => keysNodupRecList xs
  | .obj _ xs => nodupKeys xs && keysNodupRecPairs xs
  | _ => true

/-- `keysNodupRec` for all elements of an array payload. -/
def keysNodupRecList : List FieldValue → Bool
  | [] => true
  | x :: xs => keysNodupRec x && keysNodupRecList xs

/-- `keysNodupRec` for all values of an object payload. -/
def keysNodupRecPairs : List (String × FieldValue) → Bool
  | [] => true
  | (_, v) :: xs => keysNodupRec v && keysNodupRecPairs xs

end

/-- A value is wire-recognized and well-formed: its tag/payload pairing
is consistent, every tag is among the kinds with wire support (the
consistency pairing only admits the twelve recognized kinds), and every
object map has unique keys.  These are exactly the values the spec's wire
round-trip law quantifies over. -/
def recognizedWF (v : FieldValue) : Bool :=
  consistent v && keysNodupRec v

/-- The kinds excluded from wire support (the `default` case of the
encoder's `switch`): `FT_CODE`, `FT_DECIMAL_128`, `FT_MAXKEY`,
`FT_MINKEY`, `FT_BSON_REG_EXPR`, `FT_BSON_SYMBOL`, `FT_UNDEFINED`. -/
def lossyKind : FieldType → Bool
  | .FT_CODE => true
  | .FT_DECIMAL_128 => true
  | .FT_MAXKEY => true
  | .FT_MINKEY => true
  | .FT_BSON_REG_EXPR => true
  | .FT_BSON_SYMBOL => true
  | .FT_UNDEFINED => true
  | _ => false

/-! ## The `Query` filter builder (`query.h`)

A `Query` wraps `_query_map : unordered_map<string, FieldValue>`, here a
`FieldMap`.  The generic operator methods convert their operand with the
`FieldValue` constructors before delegating; the model takes the
converted `FieldValue` directly. -/

namespace Query

/-- `Query::add_condition`: `_query_map[field] = fv` (used by `eq`). -/
def add_condition (qm : FieldMap) (field : String) (fv : FieldValue) : FieldMap :=
  mapInsert field fv qm

/-- `Query::add_operator_condition(field, op, fv)`: if the field already
maps to a value whose tag is `FT_OBJECT`, `std::get` its map — throwing
(`none`) if the payload is not the map alternative — and insert the
operator into it in place (tag preserved); otherwise bind the field to a
fresh single-entry object `{op: fv}`. -/
def add_operator_condition (qm : FieldMap) (field op : String) (fv : FieldValue) :
    Option FieldMap :=
  match lookupFirst field qm with
  | some v =>
      if v.fieldType = .FT_OBJECT then
        match v with
        | .obj t m => some (mapInsert field (.obj t (mapInsert op fv m)) qm)
        | _ => none
      else some (mapInsert field (objOf [(op, fv)]) qm)
  | none => some (mapInsert field (objOf [(op, fv)]) qm)

/-- `Query::eq`. -/
def eq (qm : FieldMap) (field : String) (fv : FieldValue) : FieldMap :=
  add_condition qm field fv

/-- `Query::ne`. -/
def ne (qm : FieldMap) (field : String) (fv : FieldValue) : Option FieldMap :=
  add_operator_condition qm field "$ne" fv

/-- `Query::gt`. -/
def gt (qm : FieldMap) (field : String) (fv : FieldValue) : Option FieldMap :=
  add_operator_condition qm field "$gt" fv

/-- `Query::gte`. -/
def gte (qm : FieldMap) (field : String) (fv : FieldValue) : Option FieldMap :=
  add_operator_condition qm field "$gte" fv

/-- `Query::lt`. -/
def lt (qm : FieldMap) (field : String) (fv : FieldValue) : Option FieldMap :=
  add_operator_condition qm field "$lt" fv

/-- `Query::lte`. -/
def lte (qm : FieldMap) (field : String) (fv : FieldValue) : Option FieldMap :=
  add_operator_condition qm field "$lte" fv

/-- `Query::in`: the operand vector is converted element-wise and wrapped
as `FieldValue(fv_vector)` (an `FT_ARRAY` value). -/
def in_ (qm : FieldMap) (field : String) (vals : List FieldValue) : Option FieldMap :=
  add_operator_condition qm field "$in" (arrOf vals)

/-- `Query::all`. -/
def all (qm : FieldMap) (field : String) (vals : List FieldValue) : Option FieldMap :=
  add_operator_condition qm field "$all" (arrOf vals)

/-- `Query::exists`. -/
def existsQ (qm : FieldMap) (field : String) (value : Bool) : Option FieldMap :=
  add_operator_condition qm field "$exists" (ofBool value)

/-- `Query::mod`: operand `[divisor, remainder]` as `int64` values. -/
def mod (qm : FieldMap) (field : String) (divisor remainder : Int) : Option FieldMap :=
  add_operator_condition qm field "$mod" (arrOf [ofInt64 divisor, ofInt64 remainder])

/-- `Query::elemMatch`: operand `FieldValue(query.get_fields())` (an
`FT_OBJECT` value). -/
def elemMatch (qm : FieldMap) (field : String) (sub : FieldMap) : Option FieldMap :=
  add_operator_condition qm field "$elemMatch" (objOf sub)

/-- `Query::regex`: builds `regex_map` with `"$regex"` and, when
`options` is non-empty, `"$options"`, then assigns
`_query_map[field] = FieldValue(regex_map)` directly — it does not go
through `add_operator_condition`. -/
def regex (qm : FieldMap) (field pattern options : String) : FieldMap :=
  let m := mapInsert "$regex" (ofString pattern) []
  let m := if options = "" then m else mapInsert "$options" (ofString options) m
  mapInsert field (objOf m) qm

end Query

/-! ## The `Update` builder (`update.h`) -/

namespace Update

/-- `Update::add_operator_field(op, field, fv)`: if the operator is
absent, `emplace` it bound to a fresh single-entry map `{field: fv}`;
if present and its payload holds the map alternative, insert the field
into that map in place (tag preserved); otherwise silently do nothing. -/
def add_operator_field (um : FieldMap) (op field : String) (fv : FieldValue) : FieldMap :=
  match lookupFirst op um with
  | none => um ++ [(op, objOf [(field, fv)])]
  | some v =>
      match v with
      | .obj t m => mapInsert op (.obj t (mapInsert field fv m)) um
      | _ => um

/-- `Update::set`. -/
def set (um : FieldMap) (field : String) (fv : FieldValue) : FieldMap :=
  add_operator_field um "$set" field fv

/-- `Update::inc`. -/
def inc (um : FieldMap) (field : String) (fv : FieldValue) : FieldMap :=
  add_operator_field um "$inc" field fv

/-- `Update::push`. -/
def push (um : FieldMap) (field : String) (fv : FieldValue) : FieldMap :=
  add_operator_field um "$push" field fv

/-- `Update::unset`: the value is the empty string. -/
def unset (um : FieldMap) (field : String) : FieldMap :=
  add_operator_field um "$unset" field (ofString "")

end Update

/-! ## Map lemmas -/

theorem lookupFirst_mapInsert_self {α : Type} (k : String) (v : α) :
    ∀ m : List (String × α), lookupFirst k (mapInsert k v m) = some v := by
  intro m
  induction m with
  | nil => simp [mapInsert, lookupFirst]
  | cons p rest ih =>
      obtain ⟨k₁, w⟩ := p
      by_cases h : k₁ = k
      · simp [mapInsert, lookupFirst, h]
      · simp [mapInsert, lookupFirst, h, ih]

theorem lookupFirst_mapInsert_ne {α : Type} {k₀ k : String} (v : α) (hne : k₀ ≠ k) :
    ∀ m : List (String × α), lookupFirst k₀ (mapInsert k v m) = lookupFirst k₀ m := by
  intro m
  induction m with
  | nil => simp [mapInsert, lookupFirst, Ne.symm hne]
  | cons p rest ih =>
      obtain ⟨k₁, w⟩ := p
      by_cases h : k₁ = k
      · simp [mapInsert, lookupFirst, h, Ne.symm hne]
      · by_cases h₀ : k₁ = k₀
        · simp [mapInsert, lookupFirst, h, h₀, hne]
        · simp [mapInsert, lookupFirst, h, h₀, ih]

theorem keyAbsent_iff {α : Type} (k : String) (m : List (String × α)) :
    keyAbsent k m = true ↔ ∀ p ∈ m, p.1 ≠ k := by
  induction m with
  | nil => simp [keyAbsent]
  | cons p rest ih =>
      obtain ⟨k₁, w⟩ := p
      simp [keyAbsent, ih]

theorem mapInsert_of_absent {α : Type} {k : String} (v : α) :
    ∀ {m : List (String × α)}, keyAbsent k m = true → mapInsert k v m = m ++ [(k, v)] := by
  intro m
  induction m with
  | nil => simp [mapInsert]
  | cons p rest ih =>
      obtain ⟨k₁, w⟩ := p
      intro h
      simp only [keyAbsent, Bool.and_eq_true, Bool.not_eq_true', decide_eq_false_iff_not] at h
      simp [mapInsert, h.1, ih h.2]

theorem lookupFirst_of_absent {α : Type} {k : String} :
    ∀ {m : List (String × α)}, keyAbsent k m = true → lookupFirst k m = none := by
  intro m
  induction m with
  | nil => simp [lookupFirst]
  | cons p rest ih =>
      obtain ⟨k₁, w⟩ := p
      intro h
      simp only [keyAbsent, Bool.and_eq_true, Bool.not_eq_true', decide_eq_false_iff_not] at h
      simp [lookupFirst, h.1, ih h.2]

theorem lookupFirst_of_mem_nodup {α : Type} {k : String} {v : α} :
    ∀ {m : List (String × α)}, nodupKeys m = true → (k, v) ∈ m → lookupFirst k m = some v := by
  intro m
  induction m with
  | nil => simp
  | cons p rest ih =>
      obtain ⟨k₁, w⟩ := p
      intro hn hm
      simp only [nodupKeys, Bool.and_eq_true] at hn
      rcases List.mem_cons.mp hm with h | h
      · rw [Prod.mk.injEq] at h
        obtain ⟨hk, hv⟩ := h
        subst hk
        subst hv
        simp [lookupFirst]
      · have hk : k₁ ≠ k := by
          intro he
          subst he
          have := (keyAbsent_iff k₁ rest).mp hn.1 (k₁, v) h
          exact this rfl
        simp [lookupFirst, hk, ih hn.2 h]

theorem lookupFirst_mem {α : Type} {k : String} {v : α} :
    ∀ {m : List (String × α)}, lookupFirst k m = some v → (k, v) ∈ m := by
  intro m
  induction m with
  | nil => simp [lookupFirst]
  | cons p rest ih =>
      obtain ⟨k₁, w⟩ := p
      intro h
      by_cases hk : k₁ = k
      · subst hk
        simp [lookupFirst] at h
        simp [h]
      · simp [lookupFirst, hk] at h
        exact List.mem_cons_of_mem _ (ih h)

theorem nodupKeys_iff {α : Type} :
    ∀ m : List (String × α), nodupKeys m = true ↔ (m.map Prod.fst).Nodup := by
  intro m
  induction m with
  | nil => simp [nodupKeys]
  | cons p rest ih =>
      obtain ⟨k₁, w⟩ := p
      simp only [nodupKeys, Bool.and_eq_true, ih, List.map_cons, List.nodup_cons]
      constructor
      · rintro ⟨ha, hr⟩
        refine ⟨?_, hr⟩
        intro hmem
        obtain ⟨q, hq, hq₁⟩ := List.mem_map.mp hmem
        exact (keyAbsent_iff k₁ rest).mp ha q hq hq₁
      · rintro ⟨ha, hr⟩
        refine ⟨?_, hr⟩
        rw [keyAbsent_iff]
        intro q hq he
        exact ha (List.mem_map.mpr ⟨q, hq, he⟩)

theorem perm_nodupKeys {α : Type} {m m' : List (String × α)} (hp : m.Perm m') :
    nodupKeys m = true → nodupKeys m' = true := by
  intro h
  rw [nodupKeys_iff] at h ⊢
  exact (hp.map Prod.fst).nodup h

theorem lookupFirst_perm {α : Type} {m m' : List (String × α)} (hp : m.Perm m')
    (hn : nodupKeys m = true) (k : String) : lookupFirst k m = lookupFirst k m' := by
  induction hp with
  | nil => rfl
  | cons p _ ih =>
      obtain ⟨k₁, w⟩ := p
      simp only [nodupKeys, Bool.and_eq_true] at hn
      by_cases hk : k₁ = k
      · simp [lookupFirst, hk]
      · simp [lookupFirst, hk, ih hn.2]
  | swap p q rest =>
      obtain ⟨k₁, w₁⟩ := p
      obtain ⟨k₂, w₂⟩ := q
      simp only [nodupKeys, keyAbsent, Bool.and_eq_true, Bool.not_eq_true',
        decide_eq_false_iff_not] at hn
      have h₁₂ : ¬k₁ = k₂ := hn.1.1
      by_cases e₁ : k₁ = k
      · have e₂ : ¬k₂ = k := fun he => h₁₂ (e₁.trans he.symm)
        simp [lookupFirst, e₁, e₂]
      · by_cases e₂ : k₂ = k
        · simp [lookupFirst, e₁, e₂]
        · simp [lookupFirst, e₁, e₂]
  | trans h₁₂ _ ih₁ ih₂ =>
      exact (ih₁ hn).trans (ih₂ (perm_nodupKeys h₁₂ hn))

theorem insertAllPairs_of_absent :
    ∀ (xs acc : FieldMap), nodupKeys xs = true → (∀ p ∈ xs, keyAbsent p.1 acc = true) →
      insertAllPairs acc xs = acc ++ xs := by
  intro xs
  induction xs with
  | nil => intro acc _ _; simp [insertAllPairs]
  | cons p rest ih =>
      obtain ⟨k, v⟩ := p
      intro acc hn habs
      simp only [nodupKeys, Bool.and_eq_true] at hn
      have hk : keyAbsent k acc = true := habs (k, v) (List.mem_cons_self _ _)
      have step : insertAllPairs acc ((k, v) :: rest) = insertAllPairs (acc ++ [(k, v)]) rest := by
        simp [insertAllPairs, mapInsert_of_absent v hk]
      rw [step, ih (acc ++ [(k, v)]) hn.2]
      · simp
      · intro q hq
        rw [keyAbsent_iff]
        intro r hr
        rcases List.mem_append.mp hr with h | h
        · exact (keyAbsent_iff q.1 acc).mp (habs q (List.mem_cons_of_mem _ hq)) r h
        · simp at h
          subst h
          simp only []
          intro he
          have := (keyAbsent_iff k rest).mp hn.1 q hq
          exact this he.symm

theorem insertAllPairs_nil {xs : FieldMap} (hn : nodupKeys xs = true) :
    insertAllPairs [] xs = xs := by
  have := insertAllPairs_of_absent xs [] hn (by intro p _; simp [keyAbsent])
  simpa using this

/-! ## Equality lemmas -/

theorem fvListEq_length : ∀ {xs ys : List FieldValue}, fvListEq xs ys = true →
    xs.length = ys.length := by
  intro xs
  induction xs with
  | nil => intro ys h; cases ys with
      | nil => rfl
      | cons y ys => simp [fvListEq] at h
  | cons x xs ih =>
      intro ys h
      cases ys with
      | nil => simp [fvListEq] at h
      | cons y ys =>
          simp only [fvListEq, Bool.and_eq_true] at h
          simp [ih h.2]

theorem fvObjSub_iff : ∀ xs ys : FieldMap, fvObjSub xs ys = true ↔
    ∀ p ∈ xs, ∃ w, lookupFirst p.1 ys = some w ∧ fvEq p.2 w = true := by
  intro xs ys
  induction xs with
  | nil => simp [fvObjSub]
  | cons p rest ih =>
      obtain ⟨k, v⟩ := p
      simp only [fvObjSub, Bool.and_eq_true, ih, List.mem_cons]
      constructor
      · rintro ⟨h₁, h₂⟩ q hq
        rcases hq with he | hm
        · subst he
          rcases hl : lookupFirst k ys with _ | w
          · rw [hl] at h₁; simp at h₁
          · rw [hl] at h₁; exact ⟨w, rfl, h₁⟩
        · exact h₂ q hm
      · intro h
        constructor
        · obtain ⟨w, hw, he⟩ := h (k, v) (Or.inl rfl)
          rw [hw]
          exact he
        · intro q hq
          exact h q (Or.inr hq)

mutual

theorem fvEq_refl : ∀ v : FieldValue, keysNodupRec v = true → fvEq v v = true
  | .arr _ xs, h => by
      simp only [keysNodupRec] at h
      simp [fvEq, fvListEq_refl xs h]
  | .bin _ _, _ => by simp [fvEq]
  | .vbool _ _, _ => by simp [fvEq]
  | .vi32 _ _, _ => by simp [fvEq]
  | .vi64 _ _, _ => by simp [fvEq]
  | .vdouble _ _, _ => by simp [fvEq]
  | .vnull _, _ => by simp [fvEq]
  | .oidb _ _, _ => by simp [fvEq]
  | .vstr _ _, _ => by simp [fvEq]
  | .vdate _ _, _ => by simp [fvEq]
  | .vts _ _ _, _ => by simp [fvEq]
  | .obj _ xs, h => by
      simp only [keysNodupRec, Bool.and_eq_true] at h
      simp only [fvEq, Bool.and_eq_true, beq_self_eq_true, true_and]
      rw [fvObjSub_iff]
      intro p hp
      obtain ⟨k, v⟩ := p
      exact ⟨v, lookupFirst_of_mem_nodup h.1 hp, fvPairs_refl xs h.2 (k, v) hp⟩

theorem fvListEq_refl : ∀ xs : List FieldValue, keysNodupRecList xs = true →
    fvListEq xs xs = true
  | [], _ => by simp [fvListEq]
  | x :: xs, h => by
      simp only [keysNodupRecList, Bool.and_eq_true] at h
      simp [fvListEq, fvEq_refl x h.1, fvListEq_refl xs h.2]

theorem fvPairs_refl : ∀ xs : FieldMap, keysNodupRecPairs xs = true →
    ∀ p ∈ xs, fvEq p.2 p.2 = true
  | [], _ => by simp
  | (_, v) :: xs, h => by
      simp only [keysNodupRecPairs, Bool.and_eq_true] at h
      intro p hp
      rcases List.mem_cons.mp hp with he | hm
      · subst he; exact fvEq_refl v h.1
      · exact fvPairs_refl xs h.2 p hm

end

/-- Two object payloads that are permutations of one another (same
key-to-value mapping, unique keys, different insertion order) compare
equal under `operator==`. -/
theorem fvEq_obj_perm {t : FieldType} {xs ys : FieldMap} (hp : xs.Perm ys)
    (hn : nodupKeys xs = true) (hr : keysNodupRecPairs xs = true) :
    fvEq (.obj t xs) (.obj t ys) = true := by
  simp only [fvEq, Bool.and_eq_true, beq_self_eq_true, true_and]
  constructor
  · simp [hp.length_eq]
  · rw [fvObjSub_iff]
    intro p hpx
    obtain ⟨k, v⟩ := p
    refine ⟨v, ?_, fvPairs_refl xs hr (k, v) hpx⟩
    rw [← lookupFirst_perm hp hn k]
    exact lookupFirst_of_mem_nodup hn hpx

/-! ## Codec lemmas -/

theorem consistentPairs_mapInsert {k : String} {v : FieldValue} :
    ∀ {m : FieldMap}, consistent v = true → consistentPairs m = true →
      consistentPairs (mapInsert k v m) = true := by
  intro m
  induction m with
  | nil => intro hv _; simp [mapInsert, consistentPairs, hv]
  | cons p rest ih =>
      obtain ⟨k₁, w⟩ := p
      intro hv hm
      simp only [consistentPairs, Bool.and_eq_true] at hm
      by_cases h : k₁ = k
      · simp [mapInsert, h, consistentPairs, hv, hm.2]
      · simp [mapInsert, h, consistentPairs, hm.1, ih hv hm.2]

theorem consistentPairs_insertAll :
    ∀ {xs acc : FieldMap}, consistentPairs acc = true → consistentPairs xs = true →
      consistentPairs (insertAllPairs acc xs) = true := by
  intro xs
  induction xs with
  | nil => intro acc ha _; simpa [insertAllPairs] using ha
  | cons p rest ih =>
      obtain ⟨k, v⟩ := p
      intro acc ha hx
      simp only [consistentPairs, Bool.and_eq_true] at hx
      simp only [insertAllPairs]
      exact ih (consistentPairs_mapInsert hx.1 ha) hx.2

mutual

/-- Every value produced by `fromBsonElement` satisfies the tag/payload
consistency invariant. -/
theorem decode_consistent : ∀ w : BsonValue, consistent (decodeE w) = true
  | .bbool _ => by simp [decodeE, consistent]
  | .bint32 _ => by simp [decodeE, consistent]
  | .bint64 _ => by simp [decodeE, consistent]
  | .bdouble _ => by simp [decodeE, consistent]
  | .bnull => by simp [decodeE, consistent]
  | .bstring _ => by simp [decodeE, consistent]
  | .boid _ => by simp [decodeE, consistent]
  | .bdate _ => by simp [decodeE, consistent]
  | .btimestamp _ _ => by simp [decodeE, consistent]
  | .bbinary _ => by simp [decodeE, consistent]
  | .bdoc entries => by
      simp only [decodeE, consistent, Bool.and_eq_true, beq_self_eq_true, true_and]
      exact consistentPairs_insertAll (by simp [consistentPairs])
        (decode_pairs_consistent entries)
  | .barray elems => by
      simp [decodeE, consistent, decode_list_consistent elems]
  | .bother => by simp [decodeE, consistent]

theorem decode_list_consistent : ∀ ws : List BsonValue,
    consistentList (decodeList ws) = true
  | [] => by simp [decodeList, consistentList]
  | w :: ws => by
      simp [decodeList, consistentList, decode_consistent w, decode_list_consistent ws]

theorem decode_pairs_consistent : ∀ ps : List (String × BsonValue),
    consistentPairs (decodePairs ps) = true
  | [] => by simp [decodePairs, consistentPairs]
  | (_, w) :: ps => by
      simp [decodePairs, consistentPairs, decode_consistent w, decode_pairs_consistent ps]

end

mutual

/-- The wire round trip: encoding a consistent, recognized, unique-keyed
value succeeds and decoding the encoded element returns the value itself
(structural identity, hence also `operator==` equality). -/
theorem decode_encode : ∀ v : FieldValue, consistent v = true → keysNodupRec v = true →
    ∃ w, encodeV v = some w ∧ decodeE w = v
  | .arr t xs, hc, hn => by
      simp only [consistent, Bool.and_eq_true, beq_iff_eq] at hc
      obtain ⟨ht, hcl⟩ := hc
      subst ht
      simp only [keysNodupRec] at hn
      obtain ⟨ws, hw, hd⟩ := decode_encode_list xs hcl hn
      exact ⟨.barray ws, by simp [encodeV, FieldValue.fieldType, hw],
        by simp [decodeE, hd]⟩
  | .bin t a, hc, _ => by
      simp only [consistent, beq_iff_eq] at hc
      subst hc
      exact ⟨.bbinary a, by simp [encodeV, FieldValue.fieldType], by simp [decodeE]⟩
  | .vbool t b, hc, _ => by
      simp only [consistent, beq_iff_eq] at hc
      subst hc
      exact ⟨.bbool b, by simp [encodeV, FieldValue.fieldType], by simp [decodeE]⟩
  | .vi32 t n, hc, _ => by
      simp only [consistent, beq_iff_eq] at hc
      subst hc
      exact ⟨.bint32 n, by simp [encodeV, FieldValue.fieldType], by simp [decodeE]⟩
  | .vi64 t n, hc, _ => by
      simp only [consistent, beq_iff_eq] at hc
      subst hc
      exact ⟨.bint64 n, by simp [encodeV, FieldValue.fieldType], by simp [decodeE]⟩
  | .vdouble t d, hc, _ => by
      simp only [consistent, beq_iff_eq] at hc
      subst hc
      exact ⟨.bdouble d, by simp [encodeV, FieldValue.fieldType], by simp [decodeE]⟩
  | .vnull t, hc, _ => by
      simp only [consistent, beq_iff_eq] at hc
      subst hc
      exact ⟨.bnull, by simp [encodeV, FieldValue.fieldType], by simp [decodeE]⟩
  | .oidb t a, hc, _ => by
      simp only [consistent, beq_iff_eq] at hc
      subst hc
      exact ⟨.boid a, by simp [encodeV, FieldValue.fieldType], by simp [decodeE]⟩
  | .vstr t s, hc, _ => by
      simp only [consistent, beq_iff_eq] at hc
      subst hc
      exact ⟨.bstring s, by simp [encodeV, FieldValue.fieldType], by simp [decodeE]⟩
  | .vdate t ms, hc, _ => by
      simp only [consistent, beq_iff_eq] at hc
      subst hc
      exact ⟨.bdate ms, by simp [encodeV, FieldValue.fieldType], by simp [decodeE]⟩
  | .vts t a i, hc, _ => by
      simp only [consistent, beq_iff_eq] at hc
      subst hc
      exact ⟨.btimestamp a i, by simp [encodeV, FieldValue.fieldType], by simp [decodeE]⟩
  | .obj t xs, hc, hn => by
      simp only [consistent, Bool.and_eq_true, beq_iff_eq] at hc
      obtain ⟨ht, hcp⟩ := hc
      subst ht
      simp only [keysNodupRec, Bool.and_eq_true] at hn
      obtain ⟨ws, hw, hd⟩ := decode_encode_pairs xs hcp hn.2
      refine ⟨.bdoc ws, by simp [encodeV, FieldValue.fieldType, hw], ?_⟩
      simp [decodeE, hd, insertAllPairs_nil hn.1]

theorem decode_encode_list : ∀ xs : List FieldValue, consistentList xs = true →
    keysNodupRecList xs = true → ∃ ws, encodeList xs = some ws ∧ decodeList ws = xs
  | [], _, _ => ⟨[], rfl, rfl⟩
  | x :: xs, hc, hn => by
      simp only [consistentList, Bool.and_eq_true] at hc
      simp only [keysNodupRecList, Bool.and_eq_true] at hn
      obtain ⟨w, hw, hd⟩ := decode_encode x hc.1 hn.1
      obtain ⟨ws, hws, hds⟩ := decode_encode_list xs hc.2 hn.2
      exact ⟨w :: ws, by simp [encodeList, hw, hws], by simp [decodeList, hd, hds]⟩

theorem decode_encode_pairs : ∀ xs : FieldMap, consistentPairs xs = true →
    keysNodupRecPairs xs = true → ∃ ws, encodePairs xs = some ws ∧ decodePairs ws = xs
  | [], _, _ => ⟨[], rfl, rfl⟩
  | (k, x) :: xs, hc, hn => by
      simp only [consistentPairs, Bool.and_eq_true] at hc
      simp only [keysNodupRecPairs, Bool.and_eq_true] at hn
      obtain ⟨w, hw, hd⟩ := decode_encode x hc.1 hn.1
      obtain ⟨ws, hws, hds⟩ := decode_encode_pairs xs hc.2 hn.2
      exact ⟨(k, w) :: ws, by simp [encodePairs, hw, hws], by simp [decodePairs, hd, hds]⟩

end

/-! ## Extraction lemmas -/

theorem mapOptM_map_id {α : Type} {ofU : α → FieldValue} {asU : FieldValue → Option α}
    (h : ∀ x, asU (ofU x) = some x) : ∀ xs : List α, mapOptM asU (xs.map ofU) = some xs := by
  intro xs
  induction xs with
  | nil => simp [mapOptM]
  | cons x xs ih => simp [mapOptM, h, ih]

theorem mapOptM_isSome {α : Type} {asU : FieldValue → Option α} :
    ∀ {xs : List FieldValue}, (∀ x ∈ xs, (asU x).isSome = true) →
      (mapOptM asU xs).isSome = true := by
  intro xs
  induction xs with
  | nil => intro _; simp [mapOptM]
  | cons x xs ih =>
      intro h
      have hx := h x (List.mem_cons_self _ _)
      rcases hhd : asU x with _ | y
      · rw [hhd] at hx; simp at hx
      · have htl₁ := ih (fun x hx => h x (List.mem_cons_of_mem _ hx))
        rcases htl : mapOptM asU xs with _ | ys
        · rw [htl] at htl₁; simp at htl₁
        · simp [mapOptM, hhd, htl]

theorem mapOptM_lift {α : Type} (asU : FieldValue → α) :
    ∀ xs : List FieldValue, mapOptM (fun u => some (asU u)) xs = some (xs.map asU) := by
  intro xs
  induction xs with
  | nil => simp [mapOptM]
  | cons x xs ih => simp [mapOptM, ih]

theorem consistentList_mem : ∀ {xs : List FieldValue}, consistentList xs = true →
    ∀ x ∈ xs, consistent x = true := by
  intro xs
  induction xs with
  | nil => simp
  | cons x xs ih =>
      intro h y hy
      simp only [consistentList, Bool.and_eq_true] at h
      rcases List.mem_cons.mp hy with he | hm
      · subst he; exact h.1
      · exact ih h.2 y hm

/-! ## The claims -/

/-- C1: for every supported kind except the explicitly-excluded lossy
ones, extracting after constructing is the identity,
`as<T>(FieldValue(x)) == x`: booleans, int32, int64, doubles, strings,
enums (stored as Int32 and cast back), time points, byte sequences,
vectors of supported element types (recursively, element-wise), and
Document-derived types via `to_fields`/`from_fields`. -/
theorem claim1_construct_extract_roundtrip :
    (∀ b : Bool, asBool (ofBool b) = b)
  ∧ (∀ n : Int, asInt32 (ofInt32 n) = n)
  ∧ (∀ n : Int, asInt64 (ofInt64 n) = n)
  ∧ (∀ bits : Nat, asDouble (ofDouble bits) = bits)
  ∧ (∀ s : String, asString (ofString s) = s)
  ∧ (∀ e : Int, asEnum (ofEnum e) = e)
  ∧ (∀ ms : Int, asTimePoint (ofTimePoint ms) = ms)
  ∧ (∀ bytes : List Nat, asBinary (ofBinary bytes) = bytes)
  ∧ (∀ (α : Type) (ofU : α → FieldValue) (asU : FieldValue → Option α),
      (∀ x, asU (ofU x) = some x) →
      ∀ xs : List α, asVec asU (ofVector ofU xs) = some xs)
  ∧ (∀ (δ : Type) (dflt : δ) (toFields : δ → FieldMap) (fromFields : FieldMap → δ),
      (∀ d, fromFields (toFields d) = d) →
      ∀ d, asDoc dflt fromFields (ofDoc toFields d) = some d) := by
  refine ⟨fun b => rfl, fun n => rfl, fun n => rfl, fun bits => rfl, fun s => rfl,
    ?_, ?_, ?_, ?_, ?_⟩
  · intro e
    simp [asEnum, ofEnum, FieldValue.fieldType]
  · intro ms
    simp [asTimePoint, ofTimePoint, FieldValue.fieldType]
  · intro bytes
    simp [asBinary, ofBinary, FieldValue.fieldType]
  · intro α ofU asU h xs
    simp [asVec, ofVector, FieldValue.fieldType, mapOptM_map_id h]
  · intro δ dflt toFields fromFields h d
    simp [asDoc, ofDoc, FieldValue.fieldType, h]

/-- Witness for C1: the vector and Document round trips, instantiated at
concrete inputs (int32 elements `[1, 2, 3]`; a toy document whose single
field is an int64). -/
theorem claim1_construct_extract_roundtrip_witness :
    asVec (fun u => some (asInt32 u)) (ofVector ofInt32 [1, 2, 3]) = some [1, 2, 3]
  ∧ asDoc (0 : Int) (fun m => asInt64 ((lookupFirst "n" m).getD (ofInt64 0)))
      (ofDoc (fun d : Int => [("n", ofInt64 d)]) 7) = some 7 :=
  ⟨claim1_construct_extract_roundtrip.2.2.2.2.2.2.2.2.1 Int ofInt32
      (fun u => some (asInt32 u)) (fun x => rfl) [1, 2, 3],
   claim1_construct_extract_roundtrip.2.2.2.2.2.2.2.2.2 Int 0
      (fun d : Int => [("n", ofInt64 d)])
      (fun m => asInt64 ((lookupFirst "n" m).getD (ofInt64 0)))
      (fun d => by simp [lookupFirst, asInt64, ofInt64]) 7⟩

/-- C2: for every TypedValue whose kinds are (recursively) among the
recognized set, decoding the encoded wire element yields the value back
(structurally, hence equal under `operator==`); kinds without wire
support encode as a null marker; an unrecognized wire type decodes to a
Null-kind value, never an error. -/
theorem claim2_wire_roundtrip :
    (∀ v : FieldValue, recognizedWF v = true →
      ∃ w, encodeV v = some w ∧ decodeE w = v ∧ fvEq (decodeE w) v = true)
  ∧ (∀ v : FieldValue, lossyKind v.fieldType = true → encodeV v = some .bnull)
  ∧ decodeE .bother = .vnull .FT_NULL := by
  refine ⟨?_, ?_, rfl⟩
  · intro v h
    simp only [recognizedWF, Bool.and_eq_true] at h
    obtain ⟨w, hw, hd⟩ := decode_encode v h.1 h.2
    refine ⟨w, hw, hd, ?_⟩
    rw [hd]
    exact fvEq_refl v h.2
  · intro v h
    cases v <;> rename FieldType => t <;> cases t <;>
      simp_all [lossyKind, encodeV, FieldValue.fieldType]

/-- Witness for C2: the round trip applied to a concrete nested value
(an object holding an int32 and an array of one string). -/
theorem claim2_wire_roundtrip_witness :
    ∃ w, encodeV (objOf [("a", ofInt32 1), ("b", arrOf [ofString "x"])]) = some w ∧
      decodeE w = objOf [("a", ofInt32 1), ("b", arrOf [ofString "x"])] ∧
      fvEq (decodeE w) (objOf [("a", ofInt32 1), ("b", arrOf [ofString "x"])]) = true :=
  claim2_wire_roundtrip.1 _ (by decide)

/-- C3: repeated fluent calls on the same update operator merge into one
operator sub-document keyed by field: `set("a",1).set("b",2)` yields one
`$set` entry holding both fields; `inc("x",1).inc("x",2)` leaves the last
value for the field; and for any state in which the operator maps to an
object, a new call inserts its field into that object without disturbing
entries for other field names. -/
theorem claim3_update_operator_merge :
    Update.set (Update.set [] "a" (ofInt32 1)) "b" (ofInt32 2)
      = [("$set", objOf [("a", ofInt32 1), ("b", ofInt32 2)])]
  ∧ countKey "$set" (Update.set (Update.set [] "a" (ofInt32 1)) "b" (ofInt32 2)) = 1
  ∧ Update.inc (Update.inc [] "x" (ofInt32 1)) "x" (ofInt32 2)
      = [("$inc", objOf [("x", ofInt32 2)])]
  ∧ (∀ (um : FieldMap) (op field : String) (fv : FieldValue) (t : FieldType) (m : FieldMap),
      lookupFirst op um = some (.obj t m) →
      Update.add_operator_field um op field fv
        = mapInsert op (.obj t (mapInsert field fv m)) um)
  ∧ (∀ (um : FieldMap) (op field : String) (fv : FieldValue),
      lookupFirst op um = none →
      Update.add_operator_field um op field fv = um ++ [(op, objOf [(field, fv)])])
  ∧ (∀ (m : FieldMap) (field f : String) (fv : FieldValue), f ≠ field →
      lookupFirst f (mapInsert field fv m) = lookupFirst f m) := by
  refine ⟨rfl, rfl, rfl, ?_, ?_, ?_⟩
  · intro um op field fv t m h
    simp [Update.add_operator_field, h]
  · intro um op field fv h
    simp [Update.add_operator_field, h]
  · intro m field f fv h
    exact lookupFirst_mapInsert_ne fv h m

/-- Witness for C3: merging `set("b", 2)` into an update that already
holds `$set: {"a": 1}` yields one `$set` object with both fields, with
the pre-existing `"a"` entry undisturbed. -/
theorem claim3_update_operator_merge_witness :
    Update.add_operator_field [("$set", objOf [("a", ofInt32 1)])] "$set" "b" (ofInt32 2)
      = mapInsert "$set" (.obj .FT_OBJECT (mapInsert "b" (ofInt32 2) [("a", ofInt32 1)]))
          [("$set", objOf [("a", ofInt32 1)])]
  ∧ lookupFirst "a" (mapInsert "b" (ofInt32 2) [("a", ofInt32 1)])
      = lookupFirst "a" [("a", ofInt32 1)] :=
  ⟨claim3_update_operator_merge.2.2.2.1 [("$set", objOf [("a", ofInt32 1)])] "$set" "b"
      (ofInt32 2) .FT_OBJECT [("a", ofInt32 1)] rfl,
   claim3_update_operator_merge.2.2.2.2.2 [("a", ofInt32 1)] "b" "a" (ofInt32 2)
      (by decide)⟩

/-- C4: when a filter field already holds an Object-kind value, an
operator method call inserts the new operator into that same object
(`gte("age",10).lte("age",20)` yields one `"age"` entry holding both
operators); when the field holds a non-Object value, the call replaces
it with a fresh single-entry object. -/
theorem claim4_filter_operator_merge :
    (Query.gte [] "age" (ofInt32 10)).bind (fun q => Query.lte q "age" (ofInt32 20))
      = some [("age", objOf [("$gte", ofInt32 10), ("$lte", ofInt32 20)])]
  ∧ (∀ (qm : FieldMap) (field op : String) (fv : FieldValue) (t : FieldType) (m : FieldMap),
      lookupFirst field qm = some (.obj t m) → t = .FT_OBJECT →
      Query.add_operator_condition qm field op fv
        = some (mapInsert field (.obj t (mapInsert op fv m)) qm))
  ∧ (∀ (qm : FieldMap) (field op : String) (fv v : FieldValue),
      lookupFirst field qm = some v → v.fieldType ≠ .FT_OBJECT →
      Query.add_operator_condition qm field op fv
        = some (mapInsert field (objOf [(op, fv)]) qm)) := by
  refine ⟨rfl, ?_, ?_⟩
  · intro qm field op fv t m h ht
    subst ht
    simp [Query.add_operator_condition, h, FieldValue.fieldType]
  · intro qm field op fv v h hv
    cases v <;> simp_all [Query.add_operator_condition, FieldValue.fieldType]

/-- Witness for C4: merging `$lte` into a field that already holds the
object `{"$gte": 10}`, and replacing a field that holds a plain int
(from a prior direct `eq`) with a fresh single-entry object. -/
theorem claim4_filter_operator_merge_witness :
    Query.add_operator_condition [("age", objOf [("$gte", ofInt32 10)])] "age" "$lte"
        (ofInt32 20)
      = some (mapInsert "age"
          (.obj .FT_OBJECT (mapInsert "$lte" (ofInt32 20) [("$gte", ofInt32 10)]))
          [("age", objOf [("$gte", ofInt32 10)])])
  ∧ Query.add_operator_condition [("age", ofInt32 7)] "age" "$lte" (ofInt32 20)
      = some (mapInsert "age" (objOf [("$lte", ofInt32 20)]) [("age", ofInt32 7)]) :=
  ⟨claim4_filter_operator_merge.2.1 [("age", objOf [("$gte", ofInt32 10)])] "age" "$lte"
      (ofInt32 20) .FT_OBJECT [("$gte", ofInt32 10)] rfl rfl,
   claim4_filter_operator_merge.2.2 [("age", ofInt32 7)] "age" "$lte" (ofInt32 20)
      (ofInt32 7) rfl (by decide)⟩

/-- C5 (evaluation at the failing input): the claim — and the member's
own documentation, "Returns a default-constructed T on failure" — say a
payload mismatch degrades silently to the zero value of `T`.  But the
`is_std_vector` branch of `as<T>` calls `std::get` with no `try`/`catch`
after checking only the tag, so `FieldValue(FT_ARRAY, int32_t(5))`
(buildable with the public two-argument constructor) makes
`as<std::vector<int32_t>>` throw `std::bad_variant_access` (`none`)
instead of returning the empty vector; the scalar branches do degrade
silently, e.g. `as<int32_t>` of a String value is `0`. -/
theorem claim5_mismatch_default_eval :
    asVec (fun u => some (asInt32 u)) (.vi32 .FT_ARRAY 5) = none
  ∧ (none : Option (List Int)) ≠ some []
  ∧ asDoc (0 : Int) (fun _ => 1) (.vi32 .FT_OBJECT 5) = none
  ∧ asInt32 (ofString "x") = 0
  ∧ asVec (fun u => some (asInt32 u)) (ofString "x") = some []
  ∧ asBinary (arrOf [ofInt32 1]) = [] := by
  exact ⟨rfl, by simp, rfl, rfl, rfl, rfl⟩

/-- C6: every value produced by a host-value constructor of `FieldValue`
(including the enum, time-point, byte-vector and vector constructors,
with consistent element/field conversions) or by `fromBsonElement`
satisfies the invariant that the kind tag corresponds to the payload's
active variant alternative, recursively. -/
theorem claim6_construction_consistency :
    (∀ b, consistent (ofBool b) = true)
  ∧ (∀ n, consistent (ofInt32 n) = true)
  ∧ (∀ n, consistent (ofInt64 n) = true)
  ∧ (∀ bits, consistent (ofDouble bits) = true)
  ∧ (∀ s, consistent (ofString s) = true)
  ∧ (∀ bytes, consistent (ofOid bytes) = true)
  ∧ (∀ t i, consistent (ofTimestamp t i) = true)
  ∧ (∀ ms, consistent (ofDate ms) = true)
  ∧ (∀ e, consistent (ofEnum e) = true)
  ∧ (∀ ms, consistent (ofTimePoint ms) = true)
  ∧ (∀ bytes, consistent (ofBinary bytes) = true)
  ∧ (∀ (α : Type) (ofU : α → FieldValue), (∀ x, consistent (ofU x) = true) →
      ∀ xs, consistent (ofVector ofU xs) = true)
  ∧ (∀ (δ : Type) (toFields : δ → FieldMap),
      (∀ d, consistentPairs (toFields d) = true) →
      (∀ d, consistent (ofDoc toFields d) = true)
      ∧ ∀ ds, consistent (ofVectorDoc toFields ds) = true)
  ∧ (∀ w : BsonValue, consistent (decodeE w) = true) := by
  have hmap : ∀ {α : Type} (ofU : α → FieldValue), (∀ x, consistent (ofU x) = true) →
      ∀ xs : List α, consistentList (xs.map ofU) = true := by
    intro α ofU h xs
    induction xs with
    | nil => simp [consistentList]
    | cons x xs ih => simp [consistentList, h x, ih]
  refine ⟨fun b => rfl, fun n => rfl, fun n => rfl, fun bits => rfl, fun s => rfl,
    fun bytes => rfl, fun t i => rfl, fun ms => rfl, fun e => rfl, fun ms => rfl,
    fun bytes => rfl, ?_, ?_, decode_consistent⟩
  · intro α ofU h xs
    simp [ofVector, consistent, hmap ofU h xs]
  · intro δ toFields h
    have hdoc : ∀ d, consistent (ofDoc toFields d) = true := by
      intro d
      simp [ofDoc, consistent, h d]
    exact ⟨hdoc, fun ds => by simp [ofVectorDoc, consistent, hmap (ofDoc toFields) hdoc ds]⟩

/-- Witness for C6: consistency of a constructed vector-of-int32 value
and of a vector of toy documents. -/
theorem claim6_construction_consistency_witness :
    consistent (ofVector ofInt32 [1, 2]) = true
  ∧ consistent (ofVectorDoc (fun d : Int => [("n", ofInt64 d)]) [4, 5]) = true :=
  ⟨claim6_construction_consistency.2.2.2.2.2.2.2.2.2.2.2.1 Int ofInt32 (fun _ => rfl) [1, 2],
   (claim6_construction_consistency.2.2.2.2.2.2.2.2.2.2.2.2.1 Int
      (fun d : Int => [("n", ofInt64 d)]) (fun _ => rfl)).2 [4, 5]⟩

/-- C7: sequence extraction requires kind Array — any other kind yields
the empty sequence — and on an Array payload it applies the element
extraction to every element in order, with a length-matching result. -/
theorem claim7_sequence_extraction :
    (∀ (α : Type) (asU : FieldValue → Option α) (v : FieldValue),
      v.fieldType ≠ .FT_ARRAY → asVec asU v = some [])
  ∧ (∀ (α : Type) (asU : FieldValue → Option α) (elems : List FieldValue),
      asVec asU (.arr .FT_ARRAY elems) = mapOptM asU elems)
  ∧ (∀ (α : Type) (asU : FieldValue → α) (elems : List FieldValue),
      asVec (fun u => some (asU u)) (.arr .FT_ARRAY elems) = some (elems.map asU)
      ∧ (elems.map asU).length = elems.length
      ∧ ∀ i : Nat, (elems.map asU)[i]? = (Option.map asU elems[i]?)) := by
  refine ⟨?_, ?_, ?_⟩
  · intro α asU v h
    simp [asVec, h]
  · intro α asU elems
    simp [asVec, FieldValue.fieldType]
  · intro α asU elems
    refine ⟨by simp [asVec, FieldValue.fieldType, mapOptM_lift], by simp, ?_⟩
    intro i
    simp [List.getElem?_map]

/-- Witness for C7: a non-Array value extracts to the empty sequence. -/
theorem claim7_sequence_extraction_witness :
    asVec (fun u => some (asInt32 u)) (ofString "x") = some [] :=
  claim7_sequence_extraction.1 Int (fun u => some (asInt32 u)) (ofString "x") (by decide)

/-- C8 counterexample: the claim says `regex` follows the merge rule
(merging into an existing Object-kind entry for the field rather than
replacing it), so after `gte("a",10).regex("a","p")` the `"a"` entry
should still contain `"$gte"`.  In the code `regex` assigns
`_query_map[field] = FieldValue(regex_map)` directly: the resulting
`"a"` entry holds only `"$regex"` — the `"$gte"` operator is gone. -/
theorem claim8_regex_counterexample :
    (Query.gte [] "a" (ofInt32 10)).map (fun q => Query.regex q "a" "p" "")
      = some [("a", objOf [("$regex", ofString "p")])]
  ∧ lookupFirst "$gte" [("$regex", ofString "p")] = none := ⟨rfl, rfl⟩

/-- C8 (amended): the methods `ne`, `gt`, `gte`, `lt`, `lte`, `in`,
`all`, `exists`, `mod` and `elemMatch` wrap their operand in a
single-entry object keyed by the operator name and assign or merge it
under the field key via `add_operator_condition`; `regex` does not use
the merge rule — it builds an object holding `"$regex"` (and
`"$options"` when options are non-empty) and assigns it to the field
directly, replacing any existing entry. -/
theorem claim8_operator_wrapping :
    (∀ qm field fv, Query.ne qm field fv = Query.add_operator_condition qm field "$ne" fv)
  ∧ (∀ qm field fv, Query.gt qm field fv = Query.add_operator_condition qm field "$gt" fv)
  ∧ (∀ qm field fv, Query.gte qm field fv = Query.add_operator_condition qm field "$gte" fv)
  ∧ (∀ qm field fv, Query.lt qm field fv = Query.add_operator_condition qm field "$lt" fv)
  ∧ (∀ qm field fv, Query.lte qm field fv = Query.add_operator_condition qm field "$lte" fv)
  ∧ (∀ qm field vals,
      Query.in_ qm field vals = Query.add_operator_condition qm field "$in" (arrOf vals))
  ∧ (∀ qm field vals,
      Query.all qm field vals = Query.add_operator_condition qm field "$all" (arrOf vals))
  ∧ (∀ qm field b,
      Query.existsQ qm field b = Query.add_operator_condition qm field "$exists" (ofBool b))
  ∧ (∀ qm field d r, Query.mod qm field d r
      = Query.add_operator_condition qm field "$mod" (arrOf [ofInt64 d, ofInt64 r]))
  ∧ (∀ qm field sub, Query.elemMatch qm field sub
      = Query.add_operator_condition qm field "$elemMatch" (objOf sub))
  ∧ (∀ (qm : FieldMap) (field op : String) (fv : FieldValue),
      lookupFirst field qm = none →
      Query.add_operator_condition qm field op fv
        = some (mapInsert field (objOf [(op, fv)]) qm))
  ∧ (∀ (qm : FieldMap) (field op : String) (fv : FieldValue) (m : FieldMap),
      lookupFirst field qm = some (objOf m) →
      Query.add_operator_condition qm field op fv
        = some (mapInsert field (objOf (mapInsert op fv m)) qm))
  ∧ (∀ (qm : FieldMap) (field pattern : String),
      Query.regex qm field pattern ""
        = mapInsert field (objOf [("$regex", ofString pattern)]) qm)
  ∧ (∀ (qm : FieldMap) (field pattern options : String), options ≠ "" →
      Query.regex qm field pattern options
        = mapInsert field
            (objOf [("$regex", ofString pattern), ("$options", ofString options)]) qm) := by
  refine ⟨fun qm f v => rfl, fun qm₁ f₁ v₁ => rfl, fun qm₂ f₂ v₂ => rfl,
    fun qm₃ f₃ v₃ => rfl, fun qm₄ f₄ v₄ => rfl, fun qm₅ f₅ vs => rfl,
    fun qm₆ f₆ vs₁ => rfl, fun qm₇ f₇ b => rfl, fun qm₈ f₈ d r => rfl,
    fun qm₉ f₉ sub => rfl, ?_, ?_, fun qm₁₀ f₁₀ pat => rfl, ?_⟩
  · intro qm field op fv h
    simp [Query.add_operator_condition, h]
  · intro qm field op fv m h
    simp [Query.add_operator_condition, h, objOf, FieldValue.fieldType]
  · intro qm field pattern options h
    simp [Query.regex, h, mapInsert]

/-- Witness for C8 (amended): wrapping into an empty filter, merging into
an existing operator object, and `regex` with non-empty options. -/
theorem claim8_operator_wrapping_witness :
    Query.add_operator_condition [] "age" "$gte" (ofInt32 10)
      = some (mapInsert "age" (objOf [("$gte", ofInt32 10)]) [])
  ∧ Query.add_operator_condition [("age", objOf [("$gte", ofInt32 10)])] "age" "$lte"
        (ofInt32 20)
      = some (mapInsert "age" (objOf (mapInsert "$lte" (ofInt32 20) [("$gte", ofInt32 10)]))
          [("age", objOf [("$gte", ofInt32 10)])])
  ∧ Query.regex [] "name" "p" "i"
      = mapInsert "name" (objOf [("$regex", ofString "p"), ("$options", ofString "i")]) [] :=
  ⟨claim8_operator_wrapping.2.2.2.2.2.2.2.2.2.2.1 [] "age" "$gte" (ofInt32 10) rfl,
   claim8_operator_wrapping.2.2.2.2.2.2.2.2.2.2.2.1 [("age", objOf [("$gte", ofInt32 10)])]
      "age" "$lte" (ofInt32 20) [("$gte", ofInt32 10)] rfl,
   claim8_operator_wrapping.2.2.2.2.2.2.2.2.2.2.2.2.2 [] "name" "p" "i" (by decide)⟩

/-- C9: `operator==` requires equal kinds; object payloads with the same
key-to-value mapping compare equal regardless of insertion order; array
payloads are compared positionally, so the same elements in a different
order compare unequal (and equal arrays must have equal lengths). -/
theorem claim9_equality_semantics :
    (∀ a b : FieldValue, fvEq a b = true → a.fieldType = b.fieldType)
  ∧ (∀ (t : FieldType) (xs ys : FieldMap), xs.Perm ys → nodupKeys xs = true →
      keysNodupRecPairs xs = true → fvEq (.obj t xs) (.obj t ys) = true)
  ∧ fvEq (objOf [("a", ofInt32 1), ("b", ofInt32 2)])
      (objOf [("b", ofInt32 2), ("a", ofInt32 1)]) = true
  ∧ fvEq (arrOf [ofInt32 1, ofInt32 2]) (arrOf [ofInt32 2, ofInt32 1]) = false
  ∧ (∀ (t t₁ : FieldType) (xs ys : List FieldValue),
      fvEq (.arr t xs) (.arr t₁ ys) = true → xs.length = ys.length) := by
  refine ⟨?_, ?_, by decide, by decide, ?_⟩
  · intro a b h
    cases a <;> cases b <;> simp_all [fvEq, FieldValue.fieldType]
  · intro t xs ys hp hn hr
    exact fvEq_obj_perm hp hn hr
  · intro t t₁ xs ys h
    simp only [fvEq, Bool.and_eq_true] at h
    exact fvListEq_length h.2

/-- Witness for C9: the permutation law applied to two concrete two-entry
objects built in opposite insertion orders. -/
theorem claim9_equality_semantics_witness :
    fvEq (.obj .FT_OBJECT [("a", ofInt32 1), ("b", ofInt32 2)])
      (.obj .FT_OBJECT [("b", ofInt32 2), ("a", ofInt32 1)]) = true :=
  claim9_equality_semantics.2.1 .FT_OBJECT [("a", ofInt32 1), ("b", ofInt32 2)]
    [("b", ofInt32 2), ("a", ofInt32 1)]
    (List.Perm.swap ("b", ofInt32 2) ("a", ofInt32 1) []) (by decide) (by decide)

/-- C10: byte vectors bypass the generic Array rule: construction from a
byte vector yields kind Binary with the bytes verbatim, and binary
extraction returns the stored bytes exactly when the kind is Binary —
any other kind (including an Array of Int32 values) yields the empty
vector. -/
theorem claim10_binary_bypass :
    (∀ bytes : List Nat, ofBinary bytes = .bin .FT_BINARY bytes)
  ∧ (∀ bytes : List Nat, (ofBinary bytes).fieldType = .FT_BINARY
      ∧ (ofBinary bytes).fieldType ≠ .FT_ARRAY
      ∧ asBinary (ofBinary bytes) = bytes)
  ∧ (∀ (t : FieldType) (bytes : List Nat),
      asBinary (.bin t bytes) = if t = .FT_BINARY then bytes else [])
  ∧ (∀ v : FieldValue, v.fieldType ≠ .FT_BINARY → asBinary v = [])
  ∧ asBinary (ofVector ofInt32 [1, 2]) = [] := by
  refine ⟨fun bytes => rfl, fun bytes => ⟨rfl, fun h => FieldType.noConfusion h, rfl⟩,
    ?_, ?_, rfl⟩
  · intro t bytes
    simp [asBinary, FieldValue.fieldType]
  · intro v h
    simp [asBinary, h]

/-- Witness for C10: extracting bytes from an Int32 value yields the
empty byte vector. -/
theorem claim10_binary_bypass_witness : asBinary (ofInt32 3) = [] :=
  claim10_binary_bypass.2.2.2.1 (ofInt32 3) (by decide)

end QDB

